/-
Verification development for the urpc repository: a framed, authenticated,
encrypted RPC channel.  The definitions below are shallow embeddings of the
Python source under src/ (client/cryptosocket.py, client/urpc.py,
client/aurpc.py, server/urpc.py).  Byte strings are lists of naturals; the
external primitives (truncated SHA-256 and the AES block cipher, both taken
from libraries, not from this repository) are abstracted into a structure
of parameters, while the CBC chaining mode, the framing, the padding and the
key-roll logic are translated literally from the source.
-/
import Mathlib

/-- Byte strings of the Python source are modelled as lists of naturals. -/
abbrev Bytes := List Nat

/-- External primitives used by the source but implemented by libraries:
the function hash of cryptosocket.py (first 16 bytes of SHA-256 over the
concatenation of the arguments, hence a function of the argument list), and
the AES-128 block cipher in both directions (key, then one 16-byte block).
The repository only calls these; their internals are outside src/. -/
structure Prim where
  hash : List Bytes → Bytes
  encB : Bytes → Bytes → Bytes
  decB : Bytes → Bytes → Bytes

/-- Bytewise exclusive or, truncating to the shorter argument. -/
def xorBytes (a b : Bytes) : Bytes := List.zipWith (fun x y => x ^^^ y) a b

/-- Recursion core of toBlocks.  The first argument is a structural fuel
counter, always called with fuel at least the length of the byte string, so
the fuel-exhausted arm is unreachable; structural recursion on the fuel
keeps the function computable by the kernel. -/
def toBlocksAux : Nat → Bytes → List Bytes
  | _, [] => []
  | 0, rest => [rest]
  | n + 1, x :: xs => ((x :: xs).take 16) :: toBlocksAux n ((x :: xs).drop 16)

/-- Splitting of a byte string into consecutive 16-byte blocks, as the CBC
mode of the AES library consumes it. -/
def toBlocks (data : Bytes) : List Bytes := toBlocksAux data.length data

/-- The fuel of toBlocksAux is irrelevant once it covers the length. -/
theorem toBlocksAux_congr : ∀ (fuel : Nat) (data : Bytes), data.length ≤ fuel →
    toBlocksAux fuel data = toBlocksAux data.length data := by
  intro fuel
  induction fuel using Nat.strong_induction_on with
  | _ fuel ih =>
    intro data h
    cases data with
    | nil => cases fuel <;> rfl
    | cons x xs =>
      obtain ⟨f, rfl⟩ : ∃ f, fuel = f + 1 := by
        cases fuel with
        | zero => simp at h
        | succ f => exact ⟨f, rfl⟩
      show _ :: toBlocksAux f ((x :: xs).drop 16) =
        _ :: toBlocksAux xs.length ((x :: xs).drop 16)
      have hd : ((x :: xs).drop 16).length ≤ xs.length := by
        simp [List.length_drop]
      have h2 : xs.length ≤ f := by
        simp only [List.length_cons] at h
        omega
      rw [ih f (by omega) _ (le_trans hd h2),
        ih xs.length (by omega) _ hd]

/-- Unfolding of toBlocks on a nonempty byte string. -/
theorem toBlocks_cons (x : Nat) (xs : Bytes) :
    toBlocks (x :: xs) = ((x :: xs).take 16) :: toBlocks ((x :: xs).drop 16) := by
  show _ :: toBlocksAux xs.length ((x :: xs).drop 16) = _
  rw [toBlocks, toBlocksAux_congr xs.length _ (by simp [List.length_drop])]

/-- Value of toBlocks on the empty byte string. -/
theorem toBlocks_nil : toBlocks [] = [] := rfl

/-- CBC encryption over a list of blocks: each plaintext block is xored with
the previous ciphertext block (initially the IV) and sent through the block
cipher. -/
def cbcEncBlocks (E : Bytes → Bytes) (iv : Bytes) : List Bytes → List Bytes
  | [] => []
  | b :: bs =>
    let c := E (xorBytes iv b)
    c :: cbcEncBlocks E c bs

/-- CBC decryption over a list of blocks, inverse chaining of cbcEncBlocks. -/
def cbcDecBlocks (D : Bytes → Bytes) (iv : Bytes) : List Bytes → List Bytes
  | [] => []
  | c :: cs => xorBytes iv (D c) :: cbcDecBlocks D c cs

/-- AES-CBC encryption of a flat byte string, as performed by
AES.new(key, AES.MODE_CBC, iv).encrypt in the source. -/
def cbcEnc (E : Bytes → Bytes) (iv : Bytes) (data : Bytes) : Bytes :=
  (cbcEncBlocks E iv (toBlocks data)).flatten

/-- AES-CBC decryption of a flat byte string. -/
def cbcDec (D : Bytes → Bytes) (iv : Bytes) (data : Bytes) : Bytes :=
  (cbcDecBlocks D iv (toBlocks data)).flatten

/-- Python slice b[:-v] for a nonnegative v: for v = 0 the source expression
ciphertext[:-ciphertext[-1]] becomes ciphertext[:0], the empty string;
otherwise the last v bytes are removed (all of them when v exceeds the
length). -/
def pySliceToNeg (b : Bytes) (v : Nat) : Bytes :=
  if v = 0 then [] else b.take (b.length - v)

/-- PKCS#7-style padding as written in CryptoMsgSocket.send:
padding_amt = 16 - len(data) % 16, then padding_amt copies of the byte
padding_amt are appended (a full block when the data is already aligned). -/
def pyPad (data : Bytes) : Bytes :=
  data ++ List.replicate (16 - data.length % 16) (16 - data.length % 16)

/-- State of the blocking client CryptoMsgSocket (client/cryptosocket.py):
the shared secret, the locally generated session nonce (field session_key,
used by recv), and the nonce received from the peer (field r_session_key,
used by send). -/
structure CryptoMsgSocket where
  secret_key : Bytes
  session_key : Bytes
  r_session_key : Bytes
deriving DecidableEq

/-- Error exits of the client receive path: BrokenPipeError raised by the
explicit checks, and the IndexError that ciphertext[-1] raises on an empty
buffer. -/
inductive RecvErr where
  | brokenPipe
  | indexError
deriving DecidableEq

/-- CryptoMsgSocket.send of client/cryptosocket.py.  The payload is padded,
encrypted with AES-CBC under IV = r_session_key, framed as
auth(16) || len(2) || ciphertext, and r_session_key is advanced.  The byte
pair is bytes([length>>8, length&0xFF]); when the block count reaches 65536
the high entry is 256 and the bytes() constructor raises ValueError, which
is modelled by the value none. -/
def CryptoMsgSocket.send (P : Prim) (st : CryptoMsgSocket) (data : Bytes) :
    Option (CryptoMsgSocket × Bytes) :=
  let padding_amt := 16 - data.length % 16
  let padded := data ++ List.replicate padding_amt padding_amt
  let ct := cbcEnc (P.encB st.secret_key) st.r_session_key padded
  let length := ct.length / 16
  if 256 ≤ length / 256 then none
  else
    let lenBytes := [length / 256, length % 256]
    let auth := P.hash [st.secret_key, st.r_session_key, ct, lenBytes]
    some ({ st with r_session_key := P.hash [st.secret_key, st.r_session_key] },
          auth ++ lenBytes ++ ct)

/-- CryptoMsgSocket.recv of client/cryptosocket.py, reading from the byte
stream wire.  Short reads and an auth mismatch raise BrokenPipeError before
any state change; on success the key advances and ciphertext[:-ciphertext[-1]]
is returned.  On a zero-length plaintext the key has already been advanced
(line order of the source) when ciphertext[-1] raises IndexError, so the
error carries the mutated state. -/
def CryptoMsgSocket.recv (P : Prim) (st : CryptoMsgSocket) (wire : Bytes) :
    Except (RecvErr × CryptoMsgSocket) (CryptoMsgSocket × Bytes) :=
  let data := wire.take 18
  if data.length ≠ 18 then .error (.brokenPipe, st)
  else
    let auth := data.take 16
    let length := data.drop 16
    let block_ct := (length.getD 0 0) * 256 + length.getD 1 0
    let data_len := block_ct * 16
    let ciphertext := (wire.drop 18).take data_len
    if ciphertext.length ≠ data_len then .error (.brokenPipe, st)
    else if auth ≠ P.hash [st.secret_key, st.session_key, ciphertext, length] then
      .error (.brokenPipe, st)
    else
      let pt := cbcDec (P.decB st.secret_key) st.session_key ciphertext
      let st2 := { st with session_key := P.hash [st.secret_key, st.session_key] }
      match pt.getLast? with
      | none => .error (.indexError, st2)
      | some last => .ok (st2, pySliceToNeg pt last)

/-- Client side of the handshake (CryptoMsgSocket.__init__ with
recv_first=False followed by _recv_sesskey): the local nonce was already
generated and sent; 32 bytes are read from the peer, split into the remote
nonce and its tag, the tag is checked, and the state keeps session_key =
the local nonce and r_session_key = the received nonce. -/
def clientHandshake (P : Prim) (secret_key localNonce wire : Bytes) :
    Except RecvErr CryptoMsgSocket :=
  let keys := wire.take 32
  if keys.length ≠ 32 then .error .brokenPipe
  else
    let r := keys.take 16
    let auth := keys.drop 16
    if auth ≠ P.hash [secret_key, r] then .error .brokenPipe
    else .ok { secret_key := secret_key, session_key := localNonce, r_session_key := r }

/-- Sequential sending of a list of payloads through one socket state. -/
def CryptoMsgSocket.sendAll (P : Prim) (st : CryptoMsgSocket) :
    List Bytes → Option (CryptoMsgSocket × List Bytes)
  | [] => some (st, [])
  | d :: ds =>
    match st.send P d with
    | none => none
    | some (st1, w) =>
      match st1.sendAll P ds with
      | none => none
      | some (st2, ws) => some (st2, w :: ws)

/-- Sequential receiving of a list of frames through one socket state. -/
def CryptoMsgSocket.recvAll (P : Prim) (st : CryptoMsgSocket) :
    List Bytes → Except (RecvErr × CryptoMsgSocket) (CryptoMsgSocket × List Bytes)
  | [] => .ok (st, [])
  | w :: ws =>
    match st.recv P w with
    | .error e => .error e
    | .ok (st1, d) =>
      match st1.recvAll P ws with
      | .error e => .error e
      | .ok (st2, ds) => .ok (st2, d :: ds)

/-- Key roll of the session protocol: the relation session_key = hash(K, prev)
applied after every accepted frame. -/
def rollKey (P : Prim) (k s : Bytes) : Bytes := P.hash [k, s]

/-- The m-fold iterate of the key roll starting from a nonce. -/
def rollChain (P : Prim) (k : Bytes) (m : Nat) (n : Bytes) : Bytes :=
  (rollKey P k)^[m] n

/-- Boolean observation of the receive path: true exactly when a message is
delivered to the caller. -/
def deliverOk (r : Except (RecvErr × CryptoMsgSocket) (CryptoMsgSocket × Bytes)) : Bool :=
  match r with
  | .ok _ => true
  | .error _ => false

/-- Concrete instantiation of the external primitives used for witnesses and
counterexamples: a constant 16-byte hash and the identity block cipher.  All
claims proved generically are applied at this instance. -/
def testPrim : Prim :=
  { hash := fun _ => List.replicate 16 0
    encB := fun _ b => b
    decB := fun _ b => b }

/-- Concrete 16-byte values for witnesses. -/
def zeros16 : Bytes := List.replicate 16 0

/-- Concrete 16-byte value distinct from zeros16. -/
def ones16 : Bytes := List.replicate 16 1

/-- State of the server CryptoMsgSocket of server/urpc.py: shared secret, the
two rolling keys, the configured session_life and the current expiry
timestamp session_exp (set by _send_sesskey, extended by _recv_loop).  Time
is modelled in whole seconds. -/
structure SCryptoMsgSocket where
  secret_key : Bytes
  session_key : Bytes
  r_session_key : Bytes
  session_life : Nat
  session_exp : Nat
deriving DecidableEq

/-- Default of the session_life parameter of the server CryptoMsgSocket
constructor (server/urpc.py, __init__ signature). -/
def defaultSessionLife : Nat := 600

/-- Assignment session_exp = time.time() + session_life performed by the
server _send_sesskey during the handshake. -/
def SCryptoMsgSocket.sendSesskey (st : SCryptoMsgSocket) (now : Nat) :
    SCryptoMsgSocket :=
  { st with session_exp := now + st.session_life }

/-- Possible outcomes of one iteration of the server _recv_loop. -/
inductive StepResult where
  | closedEof
  | closedErr (reason : String)
  | indexErr (st : SCryptoMsgSocket)
  | delivered (msg : Bytes) (st : SCryptoMsgSocket)
deriving DecidableEq

/-- One iteration of CryptoMsgSocket._recv_loop of server/urpc.py: read the
18-byte header, read the ciphertext blocks, then check time.time() <
session_exp and on success extend session_exp to now + session_life, then
check the auth tag, decrypt, deliver the stripped plaintext and advance
session_key.  Each _close_err reason string is the one of the source; a
zero-length plaintext makes ciphertext[-1] raise IndexError before the key
advance. -/
def SCryptoMsgSocket.recvStep (P : Prim) (st : SCryptoMsgSocket) (now : Nat)
    (wire : Bytes) : StepResult :=
  let header := wire.take 18
  if header.length ≠ 18 then
    if header.length ≠ 0 then .closedErr "header short read" else .closedEof
  else
    let length := header.drop 16
    let get_length := ((length.getD 0 0) * 256 + length.getD 1 0) * 16
    let ciphertext := (wire.drop 18).take get_length
    if ciphertext.length ≠ get_length then .closedErr "message short read"
    else if now < st.session_exp then
      let st1 := { st with session_exp := now + st.session_life }
      if header.take 16 ≠ P.hash [st1.secret_key, st1.session_key, ciphertext, length] then
        .closedErr "invalid authentication header"
      else
        let pt := cbcDec (P.decB st1.secret_key) st1.session_key ciphertext
        match pt.getLast? with
        | none => .indexErr st1
        | some last =>
          .delivered (pySliceToNeg pt last)
            { st1 with session_key := P.hash [st1.secret_key, st1.session_key] }
    else .closedErr "session life expired"

/-- Routing outcomes of the accept handler of server/urpc.py. -/
inductive Route where
  | http
  | crypto
  | close
deriving DecidableEq

/-- ASCII bytes of the literal GET. -/
def bGET : Bytes := [71, 69, 84]

/-- ASCII bytes of the literal CRS. -/
def bCRS : Bytes := [67, 82, 83]

/-- ASCII bytes of the literal RPC. -/
def bRPC : Bytes := [82, 80, 67]

/-- Dispatch of handler_async in server/urpc.py on the first 3 bytes of an
accepted connection: the branch request == b'GET' serves HTTP, the branch
request == b'CRS' hands the socket to the crypto channel, and any other
value falls through with should_close left True, closing the connection. -/
def handlerRoute (request : Bytes) : Route :=
  if request = bGET then .http
  else if request = bCRS then .crypto
  else .close

/-- Decoded msgpack values carried by the RPC layer. -/
inductive Value where
  | nil
  | bool (b : Bool)
  | int (n : Int)
  | str (s : String)
  | arr (xs : List Value)

/-- RPC handlers registered on the server: positional arguments and keyword
arguments to either a result or a raised exception (type name, str). -/
abbrev Handler := List Value → List (String × Value) → Except (String × String) Value

/-- Lookup in a Python dict modelled as an association list in insertion
order. -/
def dictLookup {A : Type} (d : List (String × A)) (k : String) : Option A :=
  (d.find? (fun p => p.1 == k)).map (fun p => p.2)

/-- Assignment d[k] = v on a Python dict: an existing key keeps its position
and gets the new value, a new key is appended. -/
def dictSet {A : Type} (d : List (String × A)) (k : String) (v : A) :
    List (String × A) :=
  if (d.find? (fun p => p.1 == k)).isSome then
    d.map (fun p => if p.1 == k then (k, v) else p)
  else d ++ [(k, v)]

/-- Keys of a Python dict in insertion order, as list(d.keys()). -/
def dictKeys {A : Type} (d : List (String × A)) : List String := d.map (fun p => p.1)

/-- Model of str(KeyError(s)) in Python: the str of a KeyError is the repr
of its argument, which for a string free of quote and backslash characters
is the string wrapped in single quotes. -/
def pyReprStr (s : String) : String := "'" ++ s ++ "'"

/-- Body of on_msg in handler_async of server/urpc.py after msgpack
decoding: look the handler up in rpc_handlers (a missing key raises
KeyError(name), caught by the generic except clause together with handler
exceptions and turned into [type(ex).__name__, str(ex)]), and build the
response [identifier, success, data]. -/
def onMsg (registry : List (String × Handler)) (identifier : Value)
    (handler_name : String) (args : List Value) (kwargs : List (String × Value)) :
    Value :=
  match dictLookup registry handler_name with
  | none =>
    .arr [identifier, .bool false, .arr [.str "KeyError", .str (pyReprStr handler_name)]]
  | some h =>
    match h args kwargs with
    | .ok data => .arr [identifier, .bool true, data]
    | .error e => .arr [identifier, .bool false, .arr [.str e.1, .str e.2]]

/-- Registration state of the URPC server of server/urpc.py: the optional
HTTP handler and the rpc_handlers dict. -/
structure URPCServer where
  http_request : Option Handler
  rpc_handlers : List (String × Handler)

/-- The URPC.http decorator of server/urpc.py: it stores the function both
in rpc_handlers under the key http and in the http_request slot. -/
def URPCServer.http (st : URPCServer) (f : Handler) : URPCServer :=
  { http_request := some f, rpc_handlers := dictSet st.rpc_handlers "http" f }

/-- The handler registered as _dir: list(self.rpc_handlers.keys()). -/
def URPCServer.dirNames (st : URPCServer) : List String := dictKeys st.rpc_handlers

/-- Counter state of the asyncio client of client/aurpc.py. -/
structure AURPC where
  cb_id : Nat
deriving DecidableEq

/-- Id allocation of URPC._request in client/aurpc.py: cb_id is read,
incremented, and prepended to the request data. -/
def AURPC.allocRequest (st : AURPC) (data : List Value) : List Value × AURPC :=
  (Value.int st.cb_id :: data, { cb_id := st.cb_id + 1 })

/-- Sequential issuing of several requests by the asyncio client. -/
def AURPC.runRequests (st : AURPC) : List (List Value) → List (List Value) × AURPC
  | [] => ([], st)
  | d :: ds =>
    let r := st.allocRequest d
    let rest := r.2.runRequests ds
    (r.1 :: rest.1, rest.2)

/-- Request body built by URPC._request of the blocking client
client/urpc.py line data = [1] + data: the id sent on the wire is the
constant 1 for every request. -/
def syncRequestPayload (data : List Value) : List Value := Value.int 1 :: data

/-- Length of a bytewise xor. -/
theorem xorBytes_length (a b : Bytes) : (xorBytes a b).length = min a.length b.length := by
  simp [xorBytes]

/-- Xoring twice with the same mask restores the shorter operand. -/
theorem xorBytes_cancel : ∀ (a b : Bytes), b.length ≤ a.length →
    xorBytes a (xorBytes a b) = b := by
  intro a
  induction a with
  | nil =>
    intro b hb
    have : b = [] := List.length_eq_zero.mp (Nat.le_zero.mp hb)
    simp [this, xorBytes]
  | cons x xs ih =>
    intro b hb
    cases b with
    | nil => simp [xorBytes]
    | cons y ys =>
      simp only [xorBytes, List.zipWith_cons_cons] at *
      refine congrArg₂ List.cons (Nat.xor_cancel_left x y) ?_
      exact ih ys (by simpa using hb)

/-- Unfolding of toBlocks on a nonempty list headed by a full block. -/
theorem toBlocks_append16 (a b : Bytes) (ha : a.length = 16) :
    toBlocks (a ++ b) = a :: toBlocks b := by
  obtain ⟨x, xs, rfl⟩ : ∃ x xs, a = x :: xs := by
    cases a with
    | nil => simp at ha
    | cons x xs => exact ⟨x, xs, rfl⟩
  rw [List.cons_append, toBlocks_cons, ← List.cons_append,
    List.take_left' ha, List.drop_left' ha]

/-- Concatenating the blocks of a byte string restores the byte string. -/
theorem flatten_toBlocks (data : Bytes) : (toBlocks data).flatten = data := by
  have H : ∀ (n : Nat) (l : Bytes), l.length ≤ n → (toBlocks l).flatten = l := by
    intro n
    induction n with
    | zero =>
      intro l h
      have : l = [] := List.length_eq_zero.mp (Nat.le_zero.mp h)
      simp [this, toBlocks_nil]
    | succ n ih =>
      intro l h
      cases l with
      | nil => simp [toBlocks_nil]
      | cons x xs =>
        rw [toBlocks_cons, List.flatten_cons,
          ih _ (by simp only [List.length_drop, List.length_cons] at *; omega),
          List.take_append_drop]
  exact H data.length data le_rfl

/-- Splitting a concatenation of full blocks gives back those blocks. -/
theorem toBlocks_flatten (bs : List Bytes) (h : ∀ b ∈ bs, b.length = 16) :
    toBlocks bs.flatten = bs := by
  induction bs with
  | nil => simp only [List.flatten_nil]; rfl
  | cons b bs ih =>
    rw [List.flatten_cons, toBlocks_append16 _ _ (h b (by simp)),
      ih (fun c hc => h c (by simp [hc]))]

/-- Every block of a 16-divisible byte string has length 16. -/
theorem toBlocks_len16 (data : Bytes) (h : 16 ∣ data.length) :
    ∀ b ∈ toBlocks data, b.length = 16 := by
  have H : ∀ (n : Nat) (l : Bytes), l.length ≤ n → 16 ∣ l.length →
      ∀ b ∈ toBlocks l, b.length = 16 := by
    intro n
    induction n with
    | zero =>
      intro l h _
      have : l = [] := List.length_eq_zero.mp (Nat.le_zero.mp h)
      simp [this, toBlocks_nil]
    | succ n ih =>
      intro l hlen hdvd
      cases l with
      | nil => simp [toBlocks_nil]
      | cons x xs =>
        have hge : 16 ≤ (x :: xs).length := Nat.le_of_dvd (by simp) hdvd
        intro b hb
        rw [toBlocks_cons] at hb
        rcases List.mem_cons.mp hb with rfl | hb
        · simpa using hge
        · refine ih _ ?_ ?_ b hb
          · simp only [List.length_drop, List.length_cons] at *
            omega
          · simp only [List.length_drop]
            exact Nat.dvd_sub' hdvd (by norm_num)
  exact H data.length data le_rfl h

/-- Length of a concatenation of full blocks. -/
theorem flatten_length16 (bs : List Bytes) (h : ∀ b ∈ bs, b.length = 16) :
    bs.flatten.length = 16 * bs.length := by
  induction bs with
  | nil => simp
  | cons b bs ih =>
    simp only [List.flatten_cons, List.length_append, List.length_cons,
      h b (by simp), ih (fun c hc => h c (by simp [hc]))]
    ring

/-- CBC encryption of full blocks under a full IV yields full blocks, one per
input block. -/
theorem cbcEncBlocks_len (E : Bytes → Bytes) (hE : ∀ b : Bytes, b.length = 16 → (E b).length = 16) :
    ∀ (bs : List Bytes) (iv : Bytes), iv.length = 16 → (∀ b ∈ bs, b.length = 16) →
      (∀ c ∈ cbcEncBlocks E iv bs, c.length = 16) ∧
        (cbcEncBlocks E iv bs).length = bs.length := by
  intro bs
  induction bs with
  | nil => simp [cbcEncBlocks]
  | cons b bs ih =>
    intro iv hiv hb
    have hxl : (xorBytes iv b).length = 16 := by
      rw [xorBytes_length, hiv, hb b (by simp)]
      simp
    have hcl : (E (xorBytes iv b)).length = 16 := hE _ hxl
    have := ih (E (xorBytes iv b)) hcl (fun c hc => hb c (by simp [hc]))
    refine ⟨?_, by simp [cbcEncBlocks, this.2]⟩
    intro c hc
    simp only [cbcEncBlocks, List.mem_cons] at hc
    rcases hc with rfl | hc
    · exact hcl
    · exact this.1 c hc

/-- CBC decryption undoes CBC encryption blockwise when the block cipher is
inverted by its decryption direction. -/
theorem cbcDecBlocks_cbcEncBlocks (E D : Bytes → Bytes)
    (hE : ∀ b : Bytes, b.length = 16 → (E b).length = 16)
    (hDE : ∀ b : Bytes, b.length = 16 → D (E b) = b) :
    ∀ (bs : List Bytes) (iv : Bytes), iv.length = 16 → (∀ b ∈ bs, b.length = 16) →
      cbcDecBlocks D iv (cbcEncBlocks E iv bs) = bs := by
  intro bs
  induction bs with
  | nil => simp [cbcEncBlocks, cbcDecBlocks]
  | cons b bs ih =>
    intro iv hiv hb
    have hxl : (xorBytes iv b).length = 16 := by
      rw [xorBytes_length, hiv, hb b (by simp)]
      simp
    have hcl : (E (xorBytes iv b)).length = 16 := hE _ hxl
    simp only [cbcEncBlocks, cbcDecBlocks]
    rw [hDE _ hxl, xorBytes_cancel iv b (by rw [hiv, hb b (by simp)]),
      ih (E (xorBytes iv b)) hcl (fun c hc => hb c (by simp [hc]))]

/-- CBC encryption preserves the length of a 16-divisible byte string. -/
theorem cbcEnc_length (E : Bytes → Bytes) (iv data : Bytes)
    (hE : ∀ b : Bytes, b.length = 16 → (E b).length = 16)
    (hiv : iv.length = 16) (hd : 16 ∣ data.length) :
    (cbcEnc E iv data).length = data.length := by
  have hbl := toBlocks_len16 data hd
  have henc := cbcEncBlocks_len E hE (toBlocks data) iv hiv hbl
  rw [cbcEnc, flatten_length16 _ henc.1, henc.2]
  conv_rhs => rw [← flatten_toBlocks data]
  rw [flatten_length16 _ hbl]

/-- Flat CBC decryption undoes flat CBC encryption on 16-divisible data. -/
theorem cbcDec_cbcEnc (E D : Bytes → Bytes) (iv data : Bytes)
    (hE : ∀ b : Bytes, b.length = 16 → (E b).length = 16)
    (hDE : ∀ b : Bytes, b.length = 16 → D (E b) = b)
    (hiv : iv.length = 16) (hd : 16 ∣ data.length) :
    cbcDec D iv (cbcEnc E iv data) = data := by
  have hbl := toBlocks_len16 data hd
  have henc := cbcEncBlocks_len E hE (toBlocks data) iv hiv hbl
  rw [cbcDec, cbcEnc, toBlocks_flatten _ henc.1,
    cbcDecBlocks_cbcEncBlocks E D hE hDE _ iv hiv hbl, flatten_toBlocks]

/-- CBC decryption of full blocks yields one block per input block, each of
length 16, when the block cipher output has length 16. -/
theorem cbcDecBlocks_len (D : Bytes → Bytes)
    (hD : ∀ b : Bytes, b.length = 16 → (D b).length = 16) :
    ∀ (cs : List Bytes) (iv : Bytes), iv.length = 16 → (∀ c ∈ cs, c.length = 16) →
      (∀ p ∈ cbcDecBlocks D iv cs, p.length = 16) ∧
        (cbcDecBlocks D iv cs).length = cs.length := by
  intro cs
  induction cs with
  | nil => simp [cbcDecBlocks]
  | cons c cs ih =>
    intro iv hiv hc
    have hcl : c.length = 16 := hc c (by simp)
    have hpl : (xorBytes iv (D c)).length = 16 := by
      rw [xorBytes_length, hiv, hD c hcl]
      simp
    have := ih c hcl (fun e he => hc e (by simp [he]))
    refine ⟨?_, by simp [cbcDecBlocks, this.2]⟩
    intro p hp
    simp only [cbcDecBlocks, List.mem_cons] at hp
    rcases hp with rfl | hp
    · exact hpl
    · exact this.1 p hp

/-- CBC decryption preserves the length of a 16-divisible byte string. -/
theorem cbcDec_length (D : Bytes → Bytes) (iv data : Bytes)
    (hD : ∀ b : Bytes, b.length = 16 → (D b).length = 16)
    (hiv : iv.length = 16) (hd : 16 ∣ data.length) :
    (cbcDec D iv data).length = data.length := by
  have hbl := toBlocks_len16 data hd
  have hdec := cbcDecBlocks_len D hD (toBlocks data) iv hiv hbl
  rw [cbcDec, flatten_length16 _ hdec.1, hdec.2]
  conv_rhs => rw [← flatten_toBlocks data]
  rw [flatten_length16 _ hbl]

/-- The padding amount of send is always between 1 and 16. -/
theorem padAmt_bounds (data : Bytes) :
    1 ≤ 16 - data.length % 16 ∧ 16 - data.length % 16 ≤ 16 := by omega

/-- Length added by the padding of send. -/
theorem pyPad_length (data : Bytes) :
    (pyPad data).length = data.length + (16 - data.length % 16) := by
  simp [pyPad]

/-- The padded payload always has a 16-divisible length. -/
theorem pyPad_dvd (data : Bytes) : 16 ∣ (pyPad data).length := by
  rw [pyPad_length, Nat.dvd_iff_mod_eq_zero]
  omega

/-- The last byte of the padded payload is the padding amount. -/
theorem pyPad_getLast? (data : Bytes) :
    (pyPad data).getLast? = some (16 - data.length % 16) := by
  have hn : 16 - data.length % 16 ≠ 0 := by omega
  obtain ⟨m, hm⟩ : ∃ m, 16 - data.length % 16 = m + 1 :=
    ⟨16 - data.length % 16 - 1, by omega⟩
  rw [pyPad, hm, List.replicate_succ']
  rw [← List.append_assoc, List.getLast?_concat]

/-- Python stripping of the padding recovers the payload. -/
theorem strip_pyPad (data : Bytes) :
    pySliceToNeg (pyPad data) (16 - data.length % 16) = data := by
  have hn : 16 - data.length % 16 ≠ 0 := by omega
  rw [pySliceToNeg, if_neg hn, pyPad_length, Nat.add_sub_cancel, pyPad,
    List.take_left' rfl]

/-- Reading the 18-byte header of a complete frame. -/
theorem frame_take18 (auth lb ct : Bytes) (ha : auth.length = 16) (hl : lb.length = 2) :
    (auth ++ lb ++ ct).take 18 = auth ++ lb := by
  rw [List.append_assoc, ← List.append_assoc, List.take_left']
  simp [ha, hl]

/-- Reading past the 18-byte header of a complete frame. -/
theorem frame_drop18 (auth lb ct : Bytes) (ha : auth.length = 16) (hl : lb.length = 2) :
    (auth ++ lb ++ ct).drop 18 = ct := by
  rw [List.append_assoc, ← List.append_assoc, List.drop_left']
  simp [ha, hl]

/-- Behaviour of the client recv on a complete frame: the short-read branches
cannot fire, so the outcome is decided by the auth comparison and, on a
match, by the emptiness of the decrypted buffer. -/
theorem recv_frame (P : Prim) (k rk tk auth lb ct : Bytes)
    (ha : auth.length = 16) (hlb : lb.length = 2)
    (hct : ct.length = ((lb.getD 0 0) * 256 + lb.getD 1 0) * 16) :
    CryptoMsgSocket.recv P ⟨k, rk, tk⟩ (auth ++ lb ++ ct) =
      (if auth = P.hash [k, rk, ct, lb] then
        match (cbcDec (P.decB k) rk ct).getLast? with
        | none => .error (.indexError, ⟨k, P.hash [k, rk], tk⟩)
        | some last =>
          .ok (⟨k, P.hash [k, rk], tk⟩,
            pySliceToNeg (cbcDec (P.decB k) rk ct) last)
      else .error (.brokenPipe, ⟨k, rk, tk⟩)) := by
  have htake := frame_take18 auth lb ct ha hlb
  have hdrop := frame_drop18 auth lb ct ha hlb
  have h18 : (auth ++ lb).length = 18 := by simp [ha, hlb]
  have htk16 : (auth ++ lb).take 16 = auth := List.take_left' ha
  have hdr16 : (auth ++ lb).drop 16 = lb := List.drop_left' ha
  unfold CryptoMsgSocket.recv
  simp only [htake, hdrop, h18, htk16, hdr16, ← hct, List.take_length,
    ne_eq, not_true_eq_false, if_false, ite_not]

/-- Unfolded form of the client send: the frame is built from the CBC
ciphertext of the padded payload under IV = r_session_key, and the overflow
guard fires on the block-count high byte. -/
theorem send_eq (P : Prim) (k skey rk d : Bytes) :
    CryptoMsgSocket.send P ⟨k, skey, rk⟩ d =
      (if 256 ≤ (cbcEnc (P.encB k) rk (pyPad d)).length / 16 / 256 then none
       else
        some (⟨k, skey, P.hash [k, rk]⟩,
          P.hash [k, rk, cbcEnc (P.encB k) rk (pyPad d),
            [(cbcEnc (P.encB k) rk (pyPad d)).length / 16 / 256,
             (cbcEnc (P.encB k) rk (pyPad d)).length / 16 % 256]] ++
          [(cbcEnc (P.encB k) rk (pyPad d)).length / 16 / 256,
           (cbcEnc (P.encB k) rk (pyPad d)).length / 16 % 256] ++
          cbcEnc (P.encB k) rk (pyPad d))) := rfl

/-- Under a length-preserving block cipher the ciphertext has the padded
length, and for payloads below 16 times 65535 bytes the block count fits the
two length bytes, so send produces a frame. -/
theorem send_some (P : Prim) (k skey rk d : Bytes)
    (hE : ∀ b : Bytes, b.length = 16 → (P.encB k b).length = 16)
    (hrk : rk.length = 16) (hd : d.length < 1048560) :
    CryptoMsgSocket.send P ⟨k, skey, rk⟩ d =
      some (⟨k, skey, P.hash [k, rk]⟩,
        P.hash [k, rk, cbcEnc (P.encB k) rk (pyPad d),
          [(pyPad d).length / 16 / 256, (pyPad d).length / 16 % 256]] ++
        [(pyPad d).length / 16 / 256, (pyPad d).length / 16 % 256] ++
        cbcEnc (P.encB k) rk (pyPad d)) := by
  have hctl : (cbcEnc (P.encB k) rk (pyPad d)).length = (pyPad d).length :=
    cbcEnc_length _ _ _ hE hrk (pyPad_dvd d)
  have hpl := pyPad_length d
  have hsmall : (pyPad d).length / 16 / 256 < 256 := by omega
  rw [send_eq, hctl, if_neg (by omega)]

/-- One frame sent by a peer whose transmit chain sits at n is received
intact by a peer whose receive chain also sits at n, and both chains advance
to hash(K, n). -/
theorem send_recv_one (P : Prim) (k n x y d : Bytes)
    (hH : ∀ a, (P.hash a).length = 16)
    (hE : ∀ b : Bytes, b.length = 16 → (P.encB k b).length = 16)
    (hDE : ∀ b : Bytes, b.length = 16 → P.decB k (P.encB k b) = b)
    (hn : n.length = 16) (hd : d.length < 1048560) :
    ∃ w, CryptoMsgSocket.send P ⟨k, x, n⟩ d = some (⟨k, x, rollKey P k n⟩, w) ∧
      CryptoMsgSocket.recv P ⟨k, n, y⟩ w = .ok (⟨k, rollKey P k n, y⟩, d) := by
  have hctl : (cbcEnc (P.encB k) n (pyPad d)).length = (pyPad d).length :=
    cbcEnc_length _ _ _ hE hn (pyPad_dvd d)
  have hpl := pyPad_length d
  set L := (pyPad d).length / 16 with hL
  refine ⟨_, send_some P k x n d hE hn hd, ?_⟩
  have hdec : (([L / 256, L % 256] : Bytes).getD 0 0) * 256 +
      ([L / 256, L % 256] : Bytes).getD 1 0 = L := by
    simp [List.getD]
    omega
  have hct2 : (cbcEnc (P.encB k) n (pyPad d)).length =
      ((([L / 256, L % 256] : Bytes).getD 0 0) * 256 +
        ([L / 256, L % 256] : Bytes).getD 1 0) * 16 := by
    rw [hdec, hctl, hL, Nat.div_mul_cancel (pyPad_dvd d)]
  rw [recv_frame P k n y _ _ _ (hH _) (by simp) hct2, if_pos rfl,
    cbcDec_cbcEnc _ _ _ _ hE hDE hn (pyPad_dvd d), pyPad_getLast?]
  simp [strip_pyPad, rollKey]

/-- A sequence of frames sent down one direction is received intact by the
peer, and both ends of that direction advance their key in lockstep to the
iterated hash of the starting nonce. -/
theorem sendAll_recvAll (P : Prim) (k x y : Bytes)
    (hH : ∀ a, (P.hash a).length = 16)
    (hE : ∀ b : Bytes, b.length = 16 → (P.encB k b).length = 16)
    (hDE : ∀ b : Bytes, b.length = 16 → P.decB k (P.encB k b) = b) :
    ∀ (ds : List Bytes) (n : Bytes), n.length = 16 →
      (∀ d ∈ ds, d.length < 1048560) →
      ∃ ws, CryptoMsgSocket.sendAll P ⟨k, x, n⟩ ds =
          some (⟨k, x, rollChain P k ds.length n⟩, ws) ∧
        CryptoMsgSocket.recvAll P ⟨k, n, y⟩ ws =
          .ok (⟨k, rollChain P k ds.length n, y⟩, ds) := by
  intro ds
  induction ds with
  | nil =>
    intro n hn _
    exact ⟨[], by simp [CryptoMsgSocket.sendAll, CryptoMsgSocket.recvAll, rollChain]⟩
  | cons d ds ih =>
    intro n hn hb
    obtain ⟨w, hs, hr⟩ := send_recv_one P k n x y d hH hE hDE hn (hb d (by simp))
    obtain ⟨ws, hs2, hr2⟩ := ih (rollKey P k n) (hH _) (fun e he => hb e (by simp [he]))
    have hroll : rollChain P k (ds.length + 1) n = rollChain P k ds.length (rollKey P k n) := by
      rw [rollChain, rollChain, Function.iterate_succ_apply]
    refine ⟨w :: ws, ?_, ?_⟩
    · simp [CryptoMsgSocket.sendAll, hs, hs2, hroll]
    · simp [CryptoMsgSocket.recvAll, hr, hr2, hroll]

/-- C1 (amended): for every received complete frame with a nonzero block
count, the client delivers the decrypted payload iff the 16-byte auth tag
equals hash(K, rx_key, ciphertext, len_bytes); on a mismatch the connection
is closed with BrokenPipeError, no message is delivered and the rx key is
unchanged; on a match the rx key advances exactly once.  (A zero-block frame
with a matching tag is not delivered: it raises IndexError, see C9.) -/
theorem claim1_amended (P : Prim) (k rk tk auth lb ct : Bytes)
    (hD : ∀ b : Bytes, b.length = 16 → (P.decB k b).length = 16)
    (hrk : rk.length = 16)
    (ha : auth.length = 16) (hlb : lb.length = 2)
    (hct : ct.length = ((lb.getD 0 0) * 256 + lb.getD 1 0) * 16)
    (hne : ct ≠ []) :
    (deliverOk (CryptoMsgSocket.recv P ⟨k, rk, tk⟩ (auth ++ lb ++ ct)) = true ↔
      auth = P.hash [k, rk, ct, lb]) ∧
    (auth ≠ P.hash [k, rk, ct, lb] →
      CryptoMsgSocket.recv P ⟨k, rk, tk⟩ (auth ++ lb ++ ct) =
        .error (.brokenPipe, ⟨k, rk, tk⟩)) ∧
    (auth = P.hash [k, rk, ct, lb] →
      ∃ msg, CryptoMsgSocket.recv P ⟨k, rk, tk⟩ (auth ++ lb ++ ct) =
        .ok (⟨k, rollKey P k rk, tk⟩, msg)) := by
  have hdvd : 16 ∣ ct.length := ⟨(lb.getD 0 0) * 256 + lb.getD 1 0, by rw [hct]; ring⟩
  have hptl : (cbcDec (P.decB k) rk ct).length = ct.length :=
    cbcDec_length _ _ _ hD hrk hdvd
  have hptne : cbcDec (P.decB k) rk ct ≠ [] := by
    intro h0
    exact hne (List.length_eq_zero.mp (by rw [← hptl, h0]; rfl))
  obtain ⟨last, hlast⟩ :=
    Option.isSome_iff_exists.mp (List.getLast?_isSome.mpr hptne)
  rw [recv_frame P k rk tk auth lb ct ha hlb hct, hlast]
  by_cases hauth : auth = P.hash [k, rk, ct, lb]
  · rw [if_pos hauth]
    exact ⟨⟨fun _ => hauth, fun _ => rfl⟩, fun hcon => absurd hauth hcon,
      fun _ => ⟨_, rfl⟩⟩
  · rw [if_neg hauth]
    refine ⟨⟨fun hdel => ?_, fun h => absurd h hauth⟩, fun _ => rfl,
      fun h => absurd h hauth⟩
    simp [deliverOk] at hdel

/-- C1 counterexample: a complete frame whose block count is zero and whose
auth tag matches the hash over the empty ciphertext is not delivered (the
padding strip raises IndexError), refuting delivery iff tag match; moreover
the client key has already been advanced on this undelivered frame. -/
theorem claim1_cx :
    zeros16 = testPrim.hash [zeros16, ones16, [], [0, 0]] ∧
    CryptoMsgSocket.recv testPrim ⟨zeros16, ones16, ones16⟩ (zeros16 ++ [0, 0]) =
      .error (.indexError, ⟨zeros16, zeros16, ones16⟩) := ⟨rfl, rfl⟩

/-- C1 witness: a concrete one-block frame with matching tag is delivered
with the key advanced once. -/
theorem claim1_witness :
    zeros16 = testPrim.hash [zeros16, zeros16, zeros16, [0, 1]] ∧
    (∃ msg, CryptoMsgSocket.recv testPrim ⟨zeros16, zeros16, zeros16⟩
        (zeros16 ++ [0, 1] ++ zeros16) =
      .ok (⟨zeros16, rollKey testPrim zeros16 zeros16, zeros16⟩, msg)) :=
  ⟨rfl,
    (claim1_amended testPrim zeros16 zeros16 zeros16 zeros16 [0, 1] zeros16
      (fun b hb => by simpa [testPrim] using hb)
      (by simp [zeros16]) (by simp [zeros16]) (by simp)
      (by simp [zeros16]) (by simp [zeros16])).2.2 rfl⟩

/-- C2 (amended): for every pair of peers whose keys for one direction both
start at the same 16-byte nonce n, and payloads of fewer than 16 times 65535
bytes (so the two-byte block count of each frame can be built at all),
receiving the frame produced by send yields exactly the payload and both
keys for that direction advance to hash(K, n); after a sequence of m frames
both keys equal the m-fold iterate of the key roll at n. -/
theorem claim2_amended (P : Prim) (k x y : Bytes)
    (hH : ∀ a, (P.hash a).length = 16)
    (hE : ∀ b : Bytes, b.length = 16 → (P.encB k b).length = 16)
    (hDE : ∀ b : Bytes, b.length = 16 → P.decB k (P.encB k b) = b) :
    (∀ (d n : Bytes), n.length = 16 → d.length < 1048560 →
      ∃ w, CryptoMsgSocket.send P ⟨k, x, n⟩ d = some (⟨k, x, rollKey P k n⟩, w) ∧
        CryptoMsgSocket.recv P ⟨k, n, y⟩ w = .ok (⟨k, rollKey P k n, y⟩, d)) ∧
    (∀ (ds : List Bytes) (n : Bytes), n.length = 16 →
      (∀ d ∈ ds, d.length < 1048560) →
      ∃ ws, CryptoMsgSocket.sendAll P ⟨k, x, n⟩ ds =
          some (⟨k, x, rollChain P k ds.length n⟩, ws) ∧
        CryptoMsgSocket.recvAll P ⟨k, n, y⟩ ws =
          .ok (⟨k, rollChain P k ds.length n, y⟩, ds)) :=
  ⟨fun d n hn hd => send_recv_one P k n x y d hH hE hDE hn hd,
   sendAll_recvAll P k x y hH hE hDE⟩

/-- C2 counterexample: for a payload of 1048575 bytes the padded length is
1048576 bytes, the block count is 65536, its high byte is 256, and the
bytes() call of send raises ValueError: no frame is produced at all, so the
round trip claimed for every payload fails. -/
theorem claim2_cx :
    CryptoMsgSocket.send testPrim ⟨zeros16, zeros16, zeros16⟩
      (List.replicate 1048575 0) = none := by
  have hE : ∀ b : Bytes, b.length = 16 → (testPrim.encB zeros16 b).length = 16 := by
    intro b hb
    simpa [testPrim] using hb
  have hz : zeros16.length = 16 := by simp [zeros16]
  have hctl :=
    cbcEnc_length (testPrim.encB zeros16) zeros16 (pyPad (List.replicate 1048575 0))
      hE hz (pyPad_dvd _)
  have hpl : (pyPad (List.replicate 1048575 (0 : Nat))).length = 1048576 := by
    rw [pyPad_length, List.length_replicate]
  rw [send_eq, if_pos (by rw [hctl, hpl])]

/-- C2 witness: a concrete three-byte payload crosses a session and both
direction keys land on the rolled key. -/
theorem claim2_witness :
    ∃ w, CryptoMsgSocket.send testPrim ⟨zeros16, ones16, zeros16⟩ [1, 2, 3] =
        some (⟨zeros16, ones16, rollKey testPrim zeros16 zeros16⟩, w) ∧
      CryptoMsgSocket.recv testPrim ⟨zeros16, zeros16, ones16⟩ w =
        .ok (⟨zeros16, rollKey testPrim zeros16 zeros16, ones16⟩, [1, 2, 3]) :=
  (claim2_amended testPrim zeros16 ones16 ones16
    (fun a => by simp [testPrim])
    (fun b hb => by simpa [testPrim] using hb)
    (fun b hb => by simp [testPrim])).1 [1, 2, 3] zeros16
    (by simp [zeros16]) (by norm_num)

/-- C9: the receive path is not total over its documented BrokenPipeError
exits: the complete frame with block count zero and a tag matching the empty
ciphertext drives ciphertext[:-ciphertext[-1]] into indexing an empty
buffer, raising IndexError, an exit distinct from every BrokenPipeError
close; the server _recv_loop hits the same IndexError. -/
theorem claim9_thm :
    zeros16 = testPrim.hash [zeros16, ones16, [], [0, 0]] ∧
    CryptoMsgSocket.recv testPrim ⟨zeros16, ones16, zeros16⟩ (zeros16 ++ [0, 0]) =
      .error (.indexError, ⟨zeros16, zeros16, zeros16⟩) ∧
    RecvErr.indexError ≠ RecvErr.brokenPipe ∧
    SCryptoMsgSocket.recvStep testPrim ⟨zeros16, ones16, zeros16, 600, 100⟩ 0
        (zeros16 ++ [0, 0]) =
      .indexErr ⟨zeros16, ones16, zeros16, 600, 600⟩ :=
  ⟨rfl, rfl, by decide, rfl⟩

/-- C4 (amended): after decryption the receiver strips ciphertext[-1] bytes
by the raw slice ciphertext[:-ciphertext[-1]] without validating the padding
byte: a frame with matching tag and nonzero block count is accepted whatever
its final plaintext byte is, including values outside 1..16 (0 or a value
above the length yield a truncated or empty payload instead of a close). -/
theorem claim4_amended (P : Prim) (k rk tk auth lb ct : Bytes)
    (hD : ∀ b : Bytes, b.length = 16 → (P.decB k b).length = 16)
    (hrk : rk.length = 16)
    (ha : auth.length = 16) (hlb : lb.length = 2)
    (hct : ct.length = ((lb.getD 0 0) * 256 + lb.getD 1 0) * 16)
    (hne : ct ≠ [])
    (hauth : auth = P.hash [k, rk, ct, lb]) :
    ∃ last, (cbcDec (P.decB k) rk ct).getLast? = some last ∧
      CryptoMsgSocket.recv P ⟨k, rk, tk⟩ (auth ++ lb ++ ct) =
        .ok (⟨k, rollKey P k rk, tk⟩,
          pySliceToNeg (cbcDec (P.decB k) rk ct) last) := by
  have hdvd : 16 ∣ ct.length := ⟨(lb.getD 0 0) * 256 + lb.getD 1 0, by rw [hct]; ring⟩
  have hptl : (cbcDec (P.decB k) rk ct).length = ct.length :=
    cbcDec_length _ _ _ hD hrk hdvd
  have hptne : cbcDec (P.decB k) rk ct ≠ [] := by
    intro h0
    exact hne (List.length_eq_zero.mp (by rw [← hptl, h0]; rfl))
  obtain ⟨last, hlast⟩ :=
    Option.isSome_iff_exists.mp (List.getLast?_isSome.mpr hptne)
  refine ⟨last, hlast, ?_⟩
  rw [recv_frame P k rk tk auth lb ct ha hlb hct, if_pos hauth, hlast]
  rfl

/-- C4 counterexample: a frame whose decrypted final byte is 0, a padding
value outside 1..16 that the specification requires to be rejected, is
accepted and delivered (as the empty payload b[:-0] = b[:0]) with the key
advanced, instead of closing the session. -/
theorem claim4_cx :
    (cbcDec (testPrim.decB zeros16) zeros16 zeros16).getLast? = some 0 ∧
    CryptoMsgSocket.recv testPrim ⟨zeros16, zeros16, ones16⟩
        (zeros16 ++ [0, 1] ++ zeros16) =
      .ok (⟨zeros16, zeros16, ones16⟩, []) := ⟨rfl, rfl⟩

/-- C4 witness: a frame whose decrypted final byte is 17, also outside
1..16, is likewise accepted; the slice empties the buffer. -/
theorem claim4_witness :
    ∃ last, (cbcDec (testPrim.decB zeros16) zeros16
        (List.replicate 15 0 ++ [17])).getLast? = some last ∧
      CryptoMsgSocket.recv testPrim ⟨zeros16, zeros16, zeros16⟩
          (zeros16 ++ [0, 1] ++ (List.replicate 15 0 ++ [17])) =
        .ok (⟨zeros16, rollKey testPrim zeros16 zeros16, zeros16⟩,
          pySliceToNeg (cbcDec (testPrim.decB zeros16) zeros16
            (List.replicate 15 0 ++ [17])) last) :=
  claim4_amended testPrim zeros16 zeros16 zeros16 zeros16 [0, 1]
    (List.replicate 15 0 ++ [17])
    (fun b hb => by simpa [testPrim] using hb)
    (by simp [zeros16]) (by simp [zeros16]) (by simp)
    (by simp) (by simp) rfl

/-- Modelled from the spec: claim C3 asserts that each peer sets its
transmit key to the nonce it generated and sent itself (the session_key
field) and encrypts outgoing frames with the IV drawn from that locally
seeded chain.  This variant of send follows those words, using session_key
where the source uses r_session_key, for comparison with the source
function. -/
def claimedSendLocalIV (P : Prim) (st : CryptoMsgSocket) (data : Bytes) :
    Option (CryptoMsgSocket × Bytes) :=
  let padded := pyPad data
  let ct := cbcEnc (P.encB st.secret_key) st.session_key padded
  let length := ct.length / 16
  if 256 ≤ length / 256 then none
  else
    let lenBytes := [length / 256, length % 256]
    let auth := P.hash [st.secret_key, st.session_key, ct, lenBytes]
    some ({ st with session_key := P.hash [st.secret_key, st.session_key] },
          auth ++ lenBytes ++ ct)

/-- C3 counterexample: on a state whose locally generated nonce (zeros) and
received nonce (ones) differ, the frame the source produces differs from the
frame prescribed by the claim, because the source seeds the transmit chain
with the nonce received from the peer. -/
theorem claim3_cx :
    CryptoMsgSocket.send testPrim ⟨zeros16, zeros16, ones16⟩ [0] ≠
      claimedSendLocalIV testPrim ⟨zeros16, zeros16, ones16⟩ [0] := by
  decide

/-- C3 (amended): at handshake a peer keeps session_key = the nonce it
generated itself and r_session_key = the nonce received from the peer; every
outgoing frame is independent of session_key and is encrypted with AES-CBC
under IV = r_session_key, the chain seeded from the REMOTE peer nonce, with
the auth tag computed over that same key, which alone is advanced by send. -/
theorem claim3_amended :
    (∀ (P : Prim) (k ln wire : Bytes) (st : CryptoMsgSocket),
      clientHandshake P k ln wire = .ok st →
        st.secret_key = k ∧ st.session_key = ln ∧
          st.r_session_key = (wire.take 32).take 16) ∧
    (∀ (P : Prim) (k skey skey2 rk d : Bytes),
      Option.map (fun r => r.2) (CryptoMsgSocket.send P ⟨k, skey, rk⟩ d) =
        Option.map (fun r => r.2) (CryptoMsgSocket.send P ⟨k, skey2, rk⟩ d)) ∧
    (∀ (P : Prim) (k skey rk d : Bytes) (st : CryptoMsgSocket) (w : Bytes),
      CryptoMsgSocket.send P ⟨k, skey, rk⟩ d = some (st, w) →
        st.session_key = skey ∧ st.r_session_key = rollKey P k rk ∧
          w = P.hash [k, rk, cbcEnc (P.encB k) rk (pyPad d),
              [(cbcEnc (P.encB k) rk (pyPad d)).length / 16 / 256,
               (cbcEnc (P.encB k) rk (pyPad d)).length / 16 % 256]] ++
            [(cbcEnc (P.encB k) rk (pyPad d)).length / 16 / 256,
             (cbcEnc (P.encB k) rk (pyPad d)).length / 16 % 256] ++
            cbcEnc (P.encB k) rk (pyPad d)) := by
  refine ⟨?_, ?_, ?_⟩
  · intro P k ln wire st h
    unfold clientHandshake at h
    by_cases h32 : (wire.take 32).length ≠ 32
    · rw [if_pos h32] at h
      exact absurd h (by simp)
    · rw [if_neg h32] at h
      by_cases hau : (wire.take 32).drop 16 ≠ P.hash [k, (wire.take 32).take 16]
      · rw [if_pos hau] at h
        exact absurd h (by simp)
      · rw [if_neg hau] at h
        cases h
        exact ⟨rfl, rfl, rfl⟩
  · intro P k skey skey2 rk d
    rw [send_eq, send_eq]
    by_cases hg : 256 ≤ (cbcEnc (P.encB k) rk (pyPad d)).length / 16 / 256
    · rw [if_pos hg, if_pos hg]
    · rw [if_neg hg, if_neg hg]
      rfl
  · intro P k skey rk d st w h
    rw [send_eq] at h
    by_cases hg : 256 ≤ (cbcEnc (P.encB k) rk (pyPad d)).length / 16 / 256
    · rw [if_pos hg] at h
      exact absurd h (by simp)
    · rw [if_neg hg] at h
      rw [Option.some_inj] at h
      cases h
      exact ⟨rfl, rfl, rfl⟩

/-- C3 witness: the amended statement applied at a concrete handshake and a
concrete one-byte payload. -/
theorem claim3_witness :
    ((⟨zeros16, zeros16, ones16⟩ : CryptoMsgSocket).secret_key = zeros16 ∧
      (⟨zeros16, zeros16, ones16⟩ : CryptoMsgSocket).session_key = zeros16 ∧
      (⟨zeros16, zeros16, ones16⟩ : CryptoMsgSocket).r_session_key =
        (((ones16 ++ zeros16) : Bytes).take 32).take 16) ∧
    ((⟨zeros16, zeros16, zeros16⟩ : CryptoMsgSocket).session_key = zeros16 ∧
      (⟨zeros16, zeros16, zeros16⟩ : CryptoMsgSocket).r_session_key =
        rollKey testPrim zeros16 ones16 ∧
      (zeros16 ++ [0, 1] ++ xorBytes ones16 (pyPad [0])) =
        testPrim.hash [zeros16, ones16, cbcEnc (testPrim.encB zeros16) ones16 (pyPad [0]),
            [(cbcEnc (testPrim.encB zeros16) ones16 (pyPad [0])).length / 16 / 256,
             (cbcEnc (testPrim.encB zeros16) ones16 (pyPad [0])).length / 16 % 256]] ++
          [(cbcEnc (testPrim.encB zeros16) ones16 (pyPad [0])).length / 16 / 256,
           (cbcEnc (testPrim.encB zeros16) ones16 (pyPad [0])).length / 16 % 256] ++
          cbcEnc (testPrim.encB zeros16) ones16 (pyPad [0])) :=
  ⟨claim3_amended.1 testPrim zeros16 zeros16 (ones16 ++ zeros16)
      ⟨zeros16, zeros16, ones16⟩ rfl,
   claim3_amended.2.2 testPrim zeros16 zeros16 ones16 [0]
      ⟨zeros16, zeros16, zeros16⟩ (zeros16 ++ [0, 1] ++ xorBytes ones16 (pyPad [0]))
      (by decide)⟩

/-- C5 (amended): the dispatcher routes the 3-byte magic GET to the HTTP
handler and CRS to the crypto channel; every other prefix, including the
magic RPC, closes the connection. -/
theorem claim5_amended :
    handlerRoute bGET = .http ∧ handlerRoute bCRS = .crypto ∧
    ∀ r : Bytes, r ≠ bGET → r ≠ bCRS → handlerRoute r = .close := by
  refine ⟨rfl, rfl, ?_⟩
  intro r h1 h2
  simp [handlerRoute, h1, h2]

/-- C5 counterexample: the legacy magic RPC is not handed to the crypto
channel; it falls through to the close branch of handler_async. -/
theorem claim5_cx : handlerRoute bRPC = .close ∧ Route.close ≠ Route.crypto :=
  ⟨rfl, by decide⟩

/-- C5 witness: an arbitrary unknown prefix closes the connection. -/
theorem claim5_witness : handlerRoute [0, 0, 0] = .close :=
  claim5_amended.2.2 [0, 0, 0] (by decide) (by decide)

/-- Characterization of the asyncio client request loop: starting the
counter at c, the ids prepended to the successive requests are c, c+1, ...
and the counter ends at c plus the number of requests. -/
theorem runRequests_spec : ∀ (ds : List (List Value)) (c : Nat),
    ((AURPC.mk c).runRequests ds).2 = ⟨c + ds.length⟩ ∧
    ((AURPC.mk c).runRequests ds).1.map (fun p => p.head?) =
      (List.range ds.length).map (fun i => some (Value.int (Int.ofNat (c + i)))) := by
  intro ds
  induction ds with
  | nil => intro c; simp [AURPC.runRequests]
  | cons d ds ih =>
    intro c
    obtain ⟨ih2, ih1⟩ := ih (c + 1)
    constructor
    · show ((AURPC.mk (c + 1)).runRequests ds).2 = _
      rw [ih2]
      simp only [List.length_cons]
      congr 1
      omega
    · show some (Value.int (Int.ofNat c)) ::
          ((AURPC.mk (c + 1)).runRequests ds).1.map (fun p => p.head?) = _
      rw [ih1, List.length_cons, List.range_succ_eq_map, List.map_cons,
        List.map_map]
      refine congrArg₂ List.cons (by simp) ?_
      refine List.map_congr_left ?_
      intro i _
      show some (Value.int (Int.ofNat (c + 1 + i))) =
        some (Value.int (Int.ofNat (c + (i + 1))))
      rw [show c + 1 + i = c + (i + 1) from by omega]

/-- C6 (amended): the asyncio client allocates id := cb_id, then increments
the counter, so the ids of its successive requests are consecutive and
strictly increase; the blocking client, however, sends the constant id 1 on
every request (it pairs each request with the immediately following reply
and discards the id). -/
theorem claim6_amended :
    (∀ (c : Nat) (ds : List (List Value)),
      ((AURPC.mk c).runRequests ds).1.map (fun p => p.head?) =
        (List.range ds.length).map (fun i => some (Value.int (Int.ofNat (c + i)))) ∧
      ((AURPC.mk c).runRequests ds).2 = ⟨c + ds.length⟩) ∧
    (∀ data, syncRequestPayload data = Value.int 1 :: data) :=
  ⟨fun c ds => ⟨(runRequests_spec ds c).2, (runRequests_spec ds c).1⟩,
   fun _ => rfl⟩

/-- C6 counterexample: two successive requests of the blocking client both
carry the id 1, which does not strictly increase. -/
theorem claim6_cx :
    (syncRequestPayload [Value.str "ping"]).head? = some (Value.int 1) ∧
    (syncRequestPayload [Value.str "pong"]).head? = some (Value.int 1) ∧
    ¬ ((1 : Int) < 1) := ⟨rfl, rfl, by decide⟩

/-- C7 (amended): a request naming an absent method is answered in-band with
the request id, success false and payload ("KeyError", repr(method)) - the
method name wrapped in quotes by str(KeyError(...)) - and the reply is an
ordinary frame, so the session stays open. -/
theorem claim7_amended (registry : List (String × Handler)) (identifier : Value)
    (name : String) (args : List Value) (kwargs : List (String × Value))
    (habs : dictLookup registry name = none) :
    onMsg registry identifier name args kwargs =
      .arr [identifier, .bool false,
        .arr [.str "KeyError", .str (pyReprStr name)]] := by
  simp [onMsg, habs]

/-- C7 counterexample: for the absent method add the error payload carries
the message with quotes, which differs from the bare method name the claim
prescribes. -/
theorem claim7_cx :
    onMsg [] (Value.int 7) "add" [] [] =
      .arr [Value.int 7, .bool false,
        .arr [.str "KeyError", .str "'add'"]] ∧
    pyReprStr "add" ≠ "add" := ⟨rfl, by decide⟩

/-- C7 witness: the amended statement at an empty registry. -/
theorem claim7_witness :
    onMsg [] Value.nil "blink" [] [] =
      .arr [Value.nil, .bool false,
        .arr [.str "KeyError", .str (pyReprStr "blink")]] :=
  claim7_amended [] Value.nil "blink" [] [] rfl

/-- Behaviour of one server _recv_loop iteration on a complete frame: the
short-read branches cannot fire, the expiry gate is checked first (strictly,
now < session_exp), the gate extends session_exp to now + session_life, and
then the tag decides between close and delivery. -/
theorem recvStep_frame (P : Prim) (st : SCryptoMsgSocket) (now : Nat)
    (auth lb ct : Bytes) (ha : auth.length = 16) (hlb : lb.length = 2)
    (hct : ct.length = ((lb.getD 0 0) * 256 + lb.getD 1 0) * 16) :
    st.recvStep P now (auth ++ lb ++ ct) =
      (if now < st.session_exp then
        if auth = P.hash [st.secret_key, st.session_key, ct, lb] then
          match (cbcDec (P.decB st.secret_key) st.session_key ct).getLast? with
          | none => .indexErr { st with session_exp := now + st.session_life }
          | some last =>
            .delivered
              (pySliceToNeg (cbcDec (P.decB st.secret_key) st.session_key ct) last)
              { st with session_exp := now + st.session_life,
                        session_key := P.hash [st.secret_key, st.session_key] }
        else .closedErr "invalid authentication header"
      else .closedErr "session life expired") := by
  have htake := frame_take18 auth lb ct ha hlb
  have hdrop := frame_drop18 auth lb ct ha hlb
  have h18 : (auth ++ lb).length = 18 := by simp [ha, hlb]
  have htk16 : (auth ++ lb).take 16 = auth := List.take_left' ha
  have hdr16 : (auth ++ lb).drop 16 = lb := List.drop_left' ha
  unfold SCryptoMsgSocket.recvStep
  simp only [htake, hdrop, h18, htk16, hdr16, ← hct, List.take_length,
    ne_eq, not_true_eq_false, if_false, ite_not]

/-- C8 (amended): when session lifetime is enforced, each complete inbound
frame is processed only if it strictly beats the expiry, now < session_exp
(a frame arriving exactly at the expiry instant closes the session, as does
any later one, with reason session life expired); a frame passing the gate
extends session_exp to now + session_life before the tag check, with
session_life defaulting to 600 seconds at construction and session_exp
seeded as now + session_life by the handshake. -/
theorem claim8_amended (P : Prim) (st : SCryptoMsgSocket) (now : Nat)
    (auth lb ct : Bytes)
    (hD : ∀ b : Bytes, b.length = 16 → (P.decB st.secret_key b).length = 16)
    (hsk : st.session_key.length = 16)
    (ha : auth.length = 16) (hlb : lb.length = 2)
    (hct : ct.length = ((lb.getD 0 0) * 256 + lb.getD 1 0) * 16)
    (hne : ct ≠ []) :
    (st.session_exp ≤ now →
      st.recvStep P now (auth ++ lb ++ ct) = .closedErr "session life expired") ∧
    (now < st.session_exp → auth = P.hash [st.secret_key, st.session_key, ct, lb] →
      ∃ msg, st.recvStep P now (auth ++ lb ++ ct) =
        .delivered msg { st with
          session_exp := now + st.session_life,
          session_key := rollKey P st.secret_key st.session_key }) ∧
    (now < st.session_exp → auth ≠ P.hash [st.secret_key, st.session_key, ct, lb] →
      st.recvStep P now (auth ++ lb ++ ct) =
        .closedErr "invalid authentication header") ∧
    defaultSessionLife = 600 ∧
    (∀ (s : SCryptoMsgSocket) (t : Nat),
      (s.sendSesskey t).session_exp = t + s.session_life) := by
  have hdvd : 16 ∣ ct.length := ⟨(lb.getD 0 0) * 256 + lb.getD 1 0, by rw [hct]; ring⟩
  have hptl : (cbcDec (P.decB st.secret_key) st.session_key ct).length = ct.length :=
    cbcDec_length _ _ _ hD hsk hdvd
  have hptne : cbcDec (P.decB st.secret_key) st.session_key ct ≠ [] := by
    intro h0
    exact hne (List.length_eq_zero.mp (by rw [← hptl, h0]; rfl))
  obtain ⟨last, hlast⟩ :=
    Option.isSome_iff_exists.mp (List.getLast?_isSome.mpr hptne)
  rw [recvStep_frame P st now auth lb ct ha hlb hct, hlast]
  refine ⟨fun hexp => ?_, fun hgate hauth => ?_, fun hgate hauth => ?_, rfl,
    fun s t => rfl⟩
  · rw [if_neg (Nat.not_lt.mpr hexp)]
  · rw [if_pos hgate, if_pos hauth]
    exact ⟨_, rfl⟩
  · rw [if_pos hgate, if_neg hauth]

/-- C8 counterexample: a frame with a matching tag arriving exactly at the
expiry instant (now = session_exp = 100) is not processed; the session is
closed with reason session life expired. -/
theorem claim8_cx :
    SCryptoMsgSocket.recvStep testPrim ⟨zeros16, zeros16, zeros16, 600, 100⟩ 100
        (zeros16 ++ [0, 1] ++ zeros16) = .closedErr "session life expired" ∧
    zeros16 = testPrim.hash [zeros16, zeros16, zeros16, [0, 1]] := ⟨rfl, rfl⟩

/-- C8 witness: a frame strictly before expiry is delivered and the expiry
is extended to now + session_life. -/
theorem claim8_witness :
    ∃ msg, SCryptoMsgSocket.recvStep testPrim ⟨zeros16, zeros16, zeros16, 600, 100⟩ 50
        (zeros16 ++ [0, 1] ++ zeros16) =
      .delivered msg ⟨zeros16, rollKey testPrim zeros16 zeros16, zeros16, 600, 650⟩ :=
  (claim8_amended testPrim ⟨zeros16, zeros16, zeros16, 600, 100⟩ 50 zeros16 [0, 1]
    zeros16
    (fun b hb => by simpa [testPrim] using hb)
    (by simp [zeros16]) (by simp [zeros16]) (by simp)
    (by simp [zeros16]) (by simp [zeros16])).2.1 (by decide) rfl

/-- Replacing the value at a key inside a Python dict: the lookup finds the
new value exactly when the key was present. -/
theorem dictLookup_map_replace {A : Type} (d : List (String × A)) (k : String) (v : A) :
    dictLookup (d.map (fun p => if p.1 == k then (k, v) else p)) k =
      if (d.find? (fun p => p.1 == k)).isSome then some v else none := by
  induction d with
  | nil => simp [dictLookup]
  | cons p d ih =>
    rw [List.map_cons]
    by_cases hp : p.1 == k
    · rw [if_pos hp, dictLookup]
      have h1 : List.find? (fun q => q.1 == k)
          ((k, v) :: d.map (fun p => if p.1 == k then (k, v) else p)) =
          some (k, v) :=
        List.find?_cons_of_pos _ (by simp)
      have h2 : List.find? (fun q => q.1 == k) (p :: d) = some p :=
        List.find?_cons_of_pos _ hp
      rw [h1, h2]
      simp
    · rw [if_neg hp, dictLookup,
        List.find?_cons_of_neg _ (by simpa using hp),
        List.find?_cons_of_neg _ (by simpa using hp)]
      exact ih

/-- Appending a fresh binding to a Python dict makes it found by lookup. -/
theorem dictLookup_append_single {A : Type} (d : List (String × A)) (k : String)
    (v : A) (h : d.find? (fun p => p.1 == k) = none) :
    dictLookup (d ++ [(k, v)]) k = some v := by
  simp [dictLookup, List.find?_append, h]

/-- Looking up the key just assigned in a Python dict yields the new value. -/
theorem dictLookup_dictSet {A : Type} (d : List (String × A)) (k : String) (v : A) :
    dictLookup (dictSet d k v) k = some v := by
  unfold dictSet
  by_cases h : (d.find? (fun p => p.1 == k)).isSome
  · rw [if_pos h, dictLookup_map_replace, if_pos h]
  · rw [if_neg h]
    exact dictLookup_append_single _ _ _ (Option.not_isSome_iff_eq_none.mp h)

/-- The key just assigned in a Python dict is among its keys. -/
theorem mem_dictKeys_dictSet {A : Type} (d : List (String × A)) (k : String) (v : A) :
    k ∈ dictKeys (dictSet d k v) := by
  unfold dictSet
  by_cases h : (d.find? (fun p => p.1 == k)).isSome
  · rw [if_pos h]
    obtain ⟨q, hq, hqk⟩ := List.find?_isSome.mp h
    have hm : (if q.1 == k then (k, v) else q) ∈
        d.map (fun p => if p.1 == k then (k, v) else p) :=
      List.mem_map_of_mem _ hq
    rw [if_pos hqk] at hm
    exact List.mem_map.mpr ⟨(k, v), hm, rfl⟩
  · rw [if_neg h]
    simp [dictKeys]

/-- C10: registering a function through the URPC.http decorator also inserts
it into the RPC registry under the name http (besides setting the HTTP
slot); afterwards the _dir handler lists http among the method names, the
registry lookup finds the function, and an RPC request for the method http
invokes that very handler. -/
theorem claim10_thm (st : URPCServer) (f : Handler) (identifier : Value)
    (args : List Value) (kwargs : List (String × Value)) :
    (st.http f).http_request = some f ∧
    "http" ∈ (st.http f).dirNames ∧
    dictLookup (st.http f).rpc_handlers "http" = some f ∧
    onMsg (st.http f).rpc_handlers identifier "http" args kwargs =
      (match f args kwargs with
       | .ok data => .arr [identifier, .bool true, data]
       | .error e => .arr [identifier, .bool false, .arr [.str e.1, .str e.2]]) := by
  refine ⟨rfl, mem_dictKeys_dictSet _ _ _, dictLookup_dictSet _ _ _, ?_⟩
  rw [onMsg]
  simp only [URPCServer.http]
  rw [dictLookup_dictSet]
